import Mathlib

/-!
Verification of the spaced-repetition core of the my-flash-cards repository.

The embedding covers:
* the SM-2 style scheduling engine (`calculateNextReview`, `isCardDue`,
  `initializeSchedule`) from the spaced-repetition module;
* the due-card filter and deck statistics of the server routes
  (`GET /api/decks/:deckId/due-cards` and `GET /api/decks/:deckId/stats`);
* the Pinia session store (`useSessionStore`): `startSession`,
  `recordResult`, `reset` and the derived accessors `currentCard`,
  `frontText`, `backText`, `isSessionComplete`, `stats`.

Numbers that the TypeScript source holds in JS `number` are modelled as
rationals; `Math.round` is JS round-half-toward-plus-infinity, which is
exactly Mathlib's `round` on the rationals. Timestamps are modelled as
integers with the source's ordering. `Math.random() < 0.5` draws are
modelled by an explicit `coin : Bool` parameter.
-/

/-- The `ScheduleData` interface of the scheduling module: interval in days,
ease factor, repetition count and the next review timestamp (modelled in
days since an arbitrary epoch). -/
structure ScheduleData where
  intervalDays : ℚ
  easeFactor : ℚ
  repetitions : ℤ
  nextReviewDate : ℤ
  deriving Repr, DecidableEq

/-- `calculateNextReview` of the scheduling module. `now` is the day the
source reads from `new Date()`; `Math.round` is Mathlib's `round`. The new
interval is an integer in every branch (1, 6 or a rounded product), so the
next review date is `now` plus that integer number of days. -/
def calculateNextReview (correct : Bool) (currentInterval : ℚ)
    (currentEase : ℚ) (currentRepetitions : ℤ) (now : ℤ) : ScheduleData :=
  if correct then
    let newRepetitions : ℤ := currentRepetitions + 1
    let newInterval : ℤ :=
      if newRepetitions = 1 then 1
      else if newRepetitions = 2 then 6
      else round (currentInterval * currentEase)
    { intervalDays := (newInterval : ℚ)
      easeFactor := currentEase
      repetitions := newRepetitions
      nextReviewDate := now + newInterval }
  else
    { intervalDays := 1
      easeFactor := max (13/10) (currentEase - 1/5)
      repetitions := 0
      nextReviewDate := now + 1 }

/-- `isCardDue` of the scheduling module, with the `new Date()` read made an
explicit `now` parameter: a card is due when its next review date is not
after `now`. -/
def isCardDue (nextReviewDate : ℤ) (now : ℤ) : Bool :=
  nextReviewDate ≤ now

/-- `initializeSchedule` of the scheduling module: the record of a brand
new card, due immediately. -/
def initializeSchedule (now : ℤ) : ScheduleData :=
  { intervalDays := 1
    easeFactor := 5/2
    repetitions := 0
    nextReviewDate := now }

/-- One correct review applied to a schedule record, ignoring the wall
clock: the state part of iterating `calculateNextReview` with
`correct = true`. -/
def correctStep (s : ScheduleData) : ScheduleData :=
  calculateNextReview true s.intervalDays s.easeFactor s.repetitions 0

/-- The schedule after `n` consecutive correct reviews starting from a
fresh record. -/
def correctRun : ℕ → ScheduleData
  | 0 => initializeSchedule 0
  | n + 1 => correctStep (correctRun n)

/-- One row of the due-cards query of the server: a card of the deck
left-joined with its schedule, so the schedule columns are `Option`
(absent when the card has never been reviewed). -/
structure DueCardRow where
  id : ℤ
  frontText : String
  backText : String
  deckId : ℤ
  tags : Option String
  nextReviewDate : Option ℤ
  intervalDays : Option ℤ
  repetitions : Option ℤ
  deriving Repr, DecidableEq

/-- The due-cards filter of `GET /api/decks/:deckId/due-cards`: keep the
cards with no schedule row or with `nextReviewDate <= now`. -/
def dueCards (deckCards : List DueCardRow) (now : ℤ) : List DueCardRow :=
  deckCards.filter (fun card =>
    match card.nextReviewDate with
    | none => true
    | some d => d ≤ now)

/-- The response shape of `GET /api/decks/:deckId/stats`. -/
structure DeckStatsResult where
  totalCards : ℕ
  dueCards : ℕ
  totalAttempts : ℕ
  correctAttempts : ℕ
  accuracy : ℤ
  deriving Repr, DecidableEq

/-- The deck statistics of `GET /api/decks/:deckId/stats`: the attempt log
restricted to the deck is modelled as the list of its `correct` flags, and
the SQL counts become lengths of the corresponding filtered lists. -/
def deckStats (deckCards : List DueCardRow) (attempts : List Bool)
    (now : ℤ) : DeckStatsResult :=
  let totalAttempts := attempts.length
  let correctAttempts := (attempts.filter (fun b => b)).length
  { totalCards := deckCards.length
    dueCards := (dueCards deckCards now).length
    totalAttempts := totalAttempts
    correctAttempts := correctAttempts
    accuracy :=
      if 0 < totalAttempts then
        round ((correctAttempts : ℚ) / (totalAttempts : ℚ) * 100)
      else 0 }

/-- The `Card` interface of the client. -/
structure Card where
  id : ℤ
  frontText : String
  backText : String
  deckId : ℤ
  tags : Option String
  deriving Repr, DecidableEq

/-- The `CardDirection` union type of the client. -/
inductive CardDirection
  | spanishToEnglish
  | englishToSpanish
  | random
  deriving Repr, DecidableEq

/-- The inline two-valued union used for `currentCardDirection` in the
session store (the direction resolved for the active card; never
`random`). -/
inductive ResolvedDirection
  | spanishToEnglish
  | englishToSpanish
  deriving Repr, DecidableEq

/-- The `CardResult` interface: one recorded outcome. -/
structure CardResult where
  cardId : ℤ
  correct : Bool
  deriving Repr, DecidableEq

/-- The `SessionStats` interface. -/
structure SessionStats where
  totalCards : ℕ
  correctCount : ℕ
  missedCount : ℕ
  deriving Repr, DecidableEq

/-- The refs of the session store gathered into one state record. -/
structure SessionState where
  cards : List Card
  direction : CardDirection
  currentCardIndex : ℕ
  results : List CardResult
  currentCardDirection : ResolvedDirection
  deriving Repr, DecidableEq

/-- The `currentCard` computed accessor: `null` once the index has passed
the end of the card list, otherwise the card at the index. -/
def currentCard (s : SessionState) : Option Card :=
  if h : s.cards.length ≤ s.currentCardIndex then none
  else some (s.cards.get ⟨s.currentCardIndex, by omega⟩)

/-- The `frontText` computed accessor: empty string without a current
card, otherwise the face selected by the resolved direction. -/
def frontText (s : SessionState) : String :=
  match currentCard s with
  | none => ""
  | some c =>
    match s.currentCardDirection with
    | ResolvedDirection.spanishToEnglish => c.frontText
    | ResolvedDirection.englishToSpanish => c.backText

/-- The `backText` computed accessor: empty string without a current
card, otherwise the face opposite to `frontText`. -/
def backText (s : SessionState) : String :=
  match currentCard s with
  | none => ""
  | some c =>
    match s.currentCardDirection with
    | ResolvedDirection.spanishToEnglish => c.backText
    | ResolvedDirection.englishToSpanish => c.frontText

/-- The `isSessionComplete` computed accessor: the index has reached the
end of the card list. -/
def isSessionComplete (s : SessionState) : Bool :=
  s.cards.length ≤ s.currentCardIndex

/-- The `stats` computed accessor: totals over the recorded results. -/
def stats (s : SessionState) : SessionStats :=
  let correctCount := (s.results.filter (fun r => r.correct)).length
  { totalCards := s.results.length
    correctCount := correctCount
    missedCount := s.results.length - correctCount }

/-- `randomizeCurrentDirection`: the `Math.random() < 0.5` draw is the
explicit `coin` argument. -/
def randomizeCurrentDirection (coin : Bool) : ResolvedDirection :=
  if coin then ResolvedDirection.spanishToEnglish
  else ResolvedDirection.englishToSpanish

/-- `startSession`: copies the card list, resets index and results, and
resolves the first card's direction (a random draw when the policy is
`random`, otherwise the fixed policy direction). -/
def startSession (sessionCards : List Card) (sessionDirection : CardDirection)
    (coin : Bool) : SessionState :=
  { cards := sessionCards
    direction := sessionDirection
    currentCardIndex := 0
    results := []
    currentCardDirection :=
      match sessionDirection with
      | CardDirection.random => randomizeCurrentDirection coin
      | CardDirection.spanishToEnglish => ResolvedDirection.spanishToEnglish
      | CardDirection.englishToSpanish => ResolvedDirection.englishToSpanish }

/-- `recordResult`: early return when there is no current card; otherwise
append the outcome, advance the index, and in `random` mode redraw the
direction while cards remain. -/
def recordResult (correct : Bool) (coin : Bool) (s : SessionState) :
    SessionState :=
  match currentCard s with
  | none => s
  | some card =>
    let index : ℕ := s.currentCardIndex + 1
    { s with
      results := s.results ++ [{ cardId := card.id, correct := correct }]
      currentCardIndex := index
      currentCardDirection :=
        if s.direction = CardDirection.random ∧ index < s.cards.length then
          randomizeCurrentDirection coin
        else s.currentCardDirection }

/-- `reset`: the cleared session state. -/
def reset : SessionState :=
  { cards := []
    direction := CardDirection.spanishToEnglish
    currentCardIndex := 0
    results := []
    currentCardDirection := ResolvedDirection.spanishToEnglish }

/-- The session states reachable by `startSession` followed by any
sequence of `recordResult` and `reset` calls, for any random draws. -/
inductive Reachable : SessionState → Prop
  | start (cs : List Card) (d : CardDirection) (coin : Bool) :
      Reachable (startSession cs d coin)
  | record (correct coin : Bool) (s : SessionState) :
      Reachable s → Reachable (recordResult correct coin s)
  | cleared (s : SessionState) : Reachable s → Reachable reset

/-- Running a whole list of outcomes through `recordResult`; each list
entry carries the outcome and the random draw of that step. -/
def runSession (s : SessionState) (outcomes : List (Bool × Bool)) :
    SessionState :=
  outcomes.foldl (fun st p => recordResult p.1 p.2 st) s

/-- C1: on a correct outcome, `calculateNextReview` increments the
repetition count, keeps the ease factor, and returns interval 1 when the
new count is 1, interval 6 when it is 2, and the rounded product of the
current interval and ease when it exceeds 2; from a fresh record the
interval sequence under repeated correct outcomes starts 1, 6, 15, 38. -/
theorem calculateNextReview_correct_spec (i e : ℚ) (r now : ℤ) :
    ((calculateNextReview true i e r now).repetitions = r + 1 ∧
      (calculateNextReview true i e r now).easeFactor = e ∧
      (r + 1 = 1 → (calculateNextReview true i e r now).intervalDays = 1) ∧
      (r + 1 = 2 → (calculateNextReview true i e r now).intervalDays = 6) ∧
      (r + 1 > 2 →
        (calculateNextReview true i e r now).intervalDays = (round (i * e) : ℤ))) ∧
    ((correctRun 1).intervalDays = 1 ∧ (correctRun 2).intervalDays = 6 ∧
      (correctRun 3).intervalDays = 15 ∧ (correctRun 4).intervalDays = 38) := by
  constructor
  · refine ⟨by simp [calculateNextReview], by simp [calculateNextReview], ?_, ?_, ?_⟩
    · intro h
      simp [calculateNextReview, h]
    · intro h
      have h1 : ¬ (r + 1 = 1) := by omega
      simp [calculateNextReview, h, h1]
    · intro h
      have h1 : ¬ (r + 1 = 1) := by omega
      have h2 : ¬ (r + 1 = 2) := by omega
      simp [calculateNextReview, h1, h2]
  · have h1 : correctRun 1 = ⟨1, 5/2, 1, 1⟩ := by
      show correctStep (initializeSchedule 0) = _
      norm_num [correctStep, initializeSchedule, calculateNextReview]
    have h2 : correctRun 2 = ⟨6, 5/2, 2, 6⟩ := by
      show correctStep (correctRun 1) = _
      rw [h1]
      norm_num [correctStep, calculateNextReview]
    have h3 : correctRun 3 = ⟨15, 5/2, 3, 15⟩ := by
      show correctStep (correctRun 2) = _
      rw [h2]
      norm_num [correctStep, calculateNextReview, round_eq]
    have h4 : (correctRun 4).intervalDays = 38 := by
      show (correctStep (correctRun 3)).intervalDays = _
      rw [h3]
      norm_num [correctStep, calculateNextReview, round_eq]
    exact ⟨by rw [h1], by rw [h2], by rw [h3], h4⟩

/-- Witness for C1: each conditional discharged at a concrete input. -/
theorem calculateNextReview_correct_spec_witness :
    (calculateNextReview true 1 (5/2) 0 0).intervalDays = 1 ∧
    (calculateNextReview true 1 (5/2) 1 0).intervalDays = 6 ∧
    (calculateNextReview true 6 (5/2) 2 0).intervalDays = (round ((6 : ℚ) * (5/2)) : ℤ) :=
  ⟨(calculateNextReview_correct_spec 1 (5/2) 0 0).1.2.2.1 (by norm_num),
   (calculateNextReview_correct_spec 1 (5/2) 1 0).1.2.2.2.1 (by norm_num),
   (calculateNextReview_correct_spec 6 (5/2) 2 0).1.2.2.2.2 (by norm_num)⟩

/-- C2: on an incorrect outcome, `calculateNextReview` resets the
repetition count to 0 and the interval to 1, and lowers the ease factor to
`max 1.3 (ease - 0.2)`, for every prior state. -/
theorem calculateNextReview_incorrect_spec (i e : ℚ) (r now : ℤ) :
    (calculateNextReview false i e r now).repetitions = 0 ∧
    (calculateNextReview false i e r now).intervalDays = 1 ∧
    (calculateNextReview false i e r now).easeFactor = max (13/10) (e - 1/5) := by
  refine ⟨rfl, rfl, rfl⟩

/-- C6: `isCardDue` holds exactly when the next review date is not after
`now`; the boundary case of equal timestamps counts as due. -/
theorem isCardDue_spec (t now : ℤ) :
    (isCardDue t now = true ↔ t ≤ now) ∧ isCardDue t t = true := by
  constructor
  · simp [isCardDue]
  · simp [isCardDue]

/-- Witness for C6 at concrete timestamps. -/
theorem isCardDue_spec_witness : ((3 : ℤ) ≤ 5) ∧ isCardDue 2 2 = true :=
  ⟨(isCardDue_spec 3 5).1.mp (by decide), (isCardDue_spec 2 2).2⟩

/-- C9: from any state satisfying the data-model bounds (interval at
least 1, ease at least 1.3, repetitions nonnegative), every output of
`calculateNextReview` and of `initializeSchedule` satisfies them again. -/
theorem schedule_bounds_preserved (i e : ℚ) (r : ℤ)
    (hi : 1 ≤ i) (he : 13/10 ≤ e) (hr : 0 ≤ r) :
    (∀ (correct : Bool) (now : ℤ),
      1 ≤ (calculateNextReview correct i e r now).intervalDays ∧
      13/10 ≤ (calculateNextReview correct i e r now).easeFactor ∧
      0 ≤ (calculateNextReview correct i e r now).repetitions) ∧
    (∀ now : ℤ,
      1 ≤ (initializeSchedule now).intervalDays ∧
      13/10 ≤ (initializeSchedule now).easeFactor ∧
      0 ≤ (initializeSchedule now).repetitions) := by
  constructor
  · intro correct now
    cases correct with
    | false =>
      refine ⟨by norm_num [calculateNextReview], ?_, by norm_num [calculateNextReview]⟩
      simp [calculateNextReview]
    | true =>
      refine ⟨?_, by simpa [calculateNextReview] using he, ?_⟩
      · by_cases h1 : r + 1 = 1
        · simp [calculateNextReview, h1]
        · by_cases h2 : r + 1 = 2
          · simp [calculateNextReview, h1, h2]
          · have hround : (1 : ℤ) ≤ round (i * e) := by
              rw [round_eq]
              refine Int.le_floor.mpr ?_
              push_cast
              nlinarith
            simp [calculateNextReview, h1, h2]
            exact_mod_cast hround
      · simp [calculateNextReview]
        omega
  · intro now
    refine ⟨by norm_num [initializeSchedule], by norm_num [initializeSchedule],
      by norm_num [initializeSchedule]⟩

/-- Witness for C9 at a fresh record. -/
theorem schedule_bounds_preserved_witness :
    1 ≤ (calculateNextReview true 1 (5/2) 0 0).intervalDays ∧
    13/10 ≤ (calculateNextReview false 1 (5/2) 0 0).easeFactor ∧
    1 ≤ (initializeSchedule 0).intervalDays :=
  ⟨((schedule_bounds_preserved 1 (5/2) 0 (by norm_num) (by norm_num)
      (by norm_num)).1 true 0).1,
   ((schedule_bounds_preserved 1 (5/2) 0 (by norm_num) (by norm_num)
      (by norm_num)).1 false 0).2.1,
   ((schedule_bounds_preserved 1 (5/2) 0 (by norm_num) (by norm_num)
      (by norm_num)).2 0).1⟩

/-- C7: the due-cards filter returns a subsequence of the deck's cards in
their original order, containing exactly the cards with no schedule row or
with a next review date that `isCardDue` accepts. -/
theorem dueCards_spec (items : List DueCardRow) (now : ℤ) :
    (dueCards items now).Sublist items ∧
    ∀ c, c ∈ dueCards items now ↔
      c ∈ items ∧ (c.nextReviewDate = none ∨
        ∃ t, c.nextReviewDate = some t ∧ isCardDue t now = true) := by
  constructor
  · exact List.filter_sublist _
  · intro c
    rw [dueCards, List.mem_filter]
    cases h : c.nextReviewDate with
    | none => simp [h]
    | some t => simp [h, isCardDue]

/-- Witness for C7: three cards, one never reviewed, one past due at
`now = 10`, one scheduled in the future; the first two come back, in the
original order. -/
theorem dueCards_spec_witness :
    ({ id := 1, frontText := "a", backText := "b", deckId := 1, tags := none,
       nextReviewDate := none, intervalDays := none,
       repetitions := none } : DueCardRow) ∈
      dueCards
        [{ id := 1, frontText := "a", backText := "b", deckId := 1,
           tags := none, nextReviewDate := none, intervalDays := none,
           repetitions := none },
         { id := 2, frontText := "c", backText := "d", deckId := 1,
           tags := none, nextReviewDate := some 5, intervalDays := some 1,
           repetitions := some 1 },
         { id := 3, frontText := "e", backText := "f", deckId := 1,
           tags := none, nextReviewDate := some 20, intervalDays := some 1,
           repetitions := some 1 }] 10 ∧
    dueCards
        [{ id := 1, frontText := "a", backText := "b", deckId := 1,
           tags := none, nextReviewDate := none, intervalDays := none,
           repetitions := none },
         { id := 2, frontText := "c", backText := "d", deckId := 1,
           tags := none, nextReviewDate := some 5, intervalDays := some 1,
           repetitions := some 1 },
         { id := 3, frontText := "e", backText := "f", deckId := 1,
           tags := none, nextReviewDate := some 20, intervalDays := some 1,
           repetitions := some 1 }] 10 =
      [{ id := 1, frontText := "a", backText := "b", deckId := 1,
         tags := none, nextReviewDate := none, intervalDays := none,
         repetitions := none },
       { id := 2, frontText := "c", backText := "d", deckId := 1,
         tags := none, nextReviewDate := some 5, intervalDays := some 1,
         repetitions := some 1 }] := by
  constructor
  · exact ((dueCards_spec _ 10).2 _).mpr (by constructor <;> simp)
  · decide

/-- C8: `deckStats` computes accuracy as the rounded percentage of correct
attempts whenever there is at least one attempt, and returns accuracy 0
when there are no attempts. -/
theorem deckStats_accuracy_spec (deckCards : List DueCardRow)
    (attempts : List Bool) (now : ℤ) :
    (0 < (deckStats deckCards attempts now).totalAttempts →
      (deckStats deckCards attempts now).accuracy =
        round (100 * ((deckStats deckCards attempts now).correctAttempts : ℚ) /
          ((deckStats deckCards attempts now).totalAttempts : ℚ))) ∧
    ((deckStats deckCards attempts now).totalAttempts = 0 →
      (deckStats deckCards attempts now).accuracy = 0) := by
  constructor
  · intro h
    simp only [deckStats] at h ⊢
    rw [if_pos h]
    congr 1
    ring
  · intro h
    simp only [deckStats] at h ⊢
    rw [if_neg (by omega)]

/-- Witness for C8: two attempts with one correct give accuracy
round(100·1/2); an empty attempt log gives accuracy 0. -/
theorem deckStats_accuracy_spec_witness :
    ((deckStats [] [true, false] 0).accuracy =
      round (100 * ((deckStats [] [true, false] 0).correctAttempts : ℚ) /
        ((deckStats [] [true, false] 0).totalAttempts : ℚ))) ∧
    (deckStats [] ([] : List Bool) 0).accuracy = 0 :=
  ⟨(deckStats_accuracy_spec [] [true, false] 0).1 (by decide),
   (deckStats_accuracy_spec [] [] 0).2 rfl⟩

/-- `currentCard` is `none` exactly when the index has reached the end. -/
theorem currentCard_eq_none_iff (s : SessionState) :
    currentCard s = none ↔ s.cards.length ≤ s.currentCardIndex := by
  unfold currentCard
  split <;> simp_all

/-- With the index strictly inside the list, `currentCard` is the card at
the index. -/
theorem currentCard_of_lt (s : SessionState)
    (h : s.currentCardIndex < s.cards.length) :
    currentCard s = some (s.cards.get ⟨s.currentCardIndex, h⟩) := by
  unfold currentCard
  rw [dif_neg (by omega)]

/-- `recordResult` is the identity when there is no current card. -/
theorem recordResult_of_none (c coin : Bool) (s : SessionState)
    (h : currentCard s = none) : recordResult c coin s = s := by
  unfold recordResult
  rw [h]

/-- The field changes of `recordResult` when a current card exists. -/
theorem recordResult_of_some (c coin : Bool) (s : SessionState)
    (card : Card) (h : currentCard s = some card) :
    (recordResult c coin s).cards = s.cards ∧
    (recordResult c coin s).currentCardIndex = s.currentCardIndex + 1 ∧
    (recordResult c coin s).results =
      s.results ++ [{ cardId := card.id, correct := c }] := by
  unfold recordResult
  rw [h]
  exact ⟨rfl, rfl, rfl⟩

/-- Running outcomes one per remaining card drives the index to the end
and the results to one entry per card. -/
theorem runSession_fills (outcomes : List (Bool × Bool)) :
    ∀ s : SessionState, s.results.length = s.currentCardIndex →
    s.currentCardIndex + outcomes.length = s.cards.length →
    (runSession s outcomes).cards = s.cards ∧
    (runSession s outcomes).currentCardIndex = s.cards.length ∧
    (runSession s outcomes).results.length = s.cards.length := by
  induction outcomes with
  | nil =>
    intro s hres hlen
    simp only [List.length_nil] at hlen
    refine ⟨rfl, ?_, ?_⟩
    · show s.currentCardIndex = s.cards.length
      omega
    · show s.results.length = s.cards.length
      omega
  | cons p rest ih =>
    intro s hres hlen
    have hlt : s.currentCardIndex < s.cards.length := by
      simp only [List.length_cons] at hlen
      omega
    obtain ⟨hc, hi, hr⟩ :=
      recordResult_of_some p.1 p.2 s _ (currentCard_of_lt s hlt)
    have hstep : runSession s (p :: rest) =
        runSession (recordResult p.1 p.2 s) rest := rfl
    rw [hstep]
    have h1 : (recordResult p.1 p.2 s).results.length =
        (recordResult p.1 p.2 s).currentCardIndex := by
      rw [hr, hi]
      simp [hres]
    have h2 : (recordResult p.1 p.2 s).currentCardIndex + rest.length =
        (recordResult p.1 p.2 s).cards.length := by
      rw [hi, hc]
      simp only [List.length_cons] at hlen
      omega
    obtain ⟨g1, g2, g3⟩ := ih (recordResult p.1 p.2 s) h1 h2
    rw [hc] at g1 g2 g3
    exact ⟨g1, g2, g3⟩

/-- In every session's statistics, correct and missed outcomes add up to
the total. -/
theorem stats_split (s : SessionState) :
    (stats s).correctCount + (stats s).missedCount = (stats s).totalCards := by
  simp only [stats]
  have h := List.length_filter_le (fun r => r.correct) s.results
  omega

/-- C4: every state reachable from `startSession` through `recordResult`
and `reset` keeps the index within the card list with one recorded result
per step taken; a session started on N cards is complete after exactly N
`recordResult` calls, with N results split between correct and missed. -/
theorem session_invariant_and_completion :
    (∀ s : SessionState, Reachable s →
      s.currentCardIndex ≤ s.cards.length ∧
      s.results.length = s.currentCardIndex) ∧
    (∀ (cs : List Card) (d : CardDirection) (coin : Bool)
      (outcomes : List (Bool × Bool)), outcomes.length = cs.length →
      isSessionComplete (runSession (startSession cs d coin) outcomes) = true ∧
      (stats (runSession (startSession cs d coin) outcomes)).totalCards =
        cs.length ∧
      (stats (runSession (startSession cs d coin) outcomes)).correctCount +
        (stats (runSession (startSession cs d coin) outcomes)).missedCount =
          cs.length) := by
  constructor
  · intro s hs
    induction hs with
    | start cs d coin => exact ⟨Nat.zero_le _, rfl⟩
    | record c coin s hs ih =>
      cases hcc : currentCard s with
      | none =>
        rw [recordResult_of_none c coin s hcc]
        exact ih
      | some card =>
        have hlt : s.currentCardIndex < s.cards.length := by
          by_contra hge
          rw [(currentCard_eq_none_iff s).mpr (by omega)] at hcc
          exact Option.noConfusion hcc
        obtain ⟨hc, hi, hr⟩ := recordResult_of_some c coin s card hcc
        constructor
        · rw [hc, hi]
          omega
        · rw [hr, hi]
          simp [ih.2]
    | cleared s hs ih => exact ⟨Nat.zero_le _, rfl⟩
  · intro cs d coin outcomes hlen
    have h0 : (startSession cs d coin).results.length =
        (startSession cs d coin).currentCardIndex := rfl
    have h1 : (startSession cs d coin).currentCardIndex + outcomes.length =
        (startSession cs d coin).cards.length := by
      simp [startSession, hlen]
    obtain ⟨g1, g2, g3⟩ := runSession_fills outcomes (startSession cs d coin) h0 h1
    have hcards : (startSession cs d coin).cards = cs := rfl
    rw [hcards] at g1 g2 g3
    refine ⟨?_, ?_, ?_⟩
    · simp [isSessionComplete, g1, g2]
    · simp [stats, g3]
    · have hsplit := stats_split (runSession (startSession cs d coin) outcomes)
      have htot : (stats (runSession (startSession cs d coin) outcomes)).totalCards
          = cs.length := by simp [stats, g3]
      omega

/-- Witness for C4: a one-card session, reached by `startSession`, and run
to completion by a single `recordResult`. -/
theorem session_invariant_and_completion_witness :
    ((startSession [] CardDirection.random true).currentCardIndex ≤
        (startSession [] CardDirection.random true).cards.length ∧
      (startSession [] CardDirection.random true).results.length =
        (startSession [] CardDirection.random true).currentCardIndex) ∧
    (isSessionComplete
        (runSession
          (startSession
            [{ id := 1, frontText := "hola", backText := "hello",
               deckId := 1, tags := none }]
            CardDirection.spanishToEnglish false)
          [(true, false)]) = true ∧
      (stats
        (runSession
          (startSession
            [{ id := 1, frontText := "hola", backText := "hello",
               deckId := 1, tags := none }]
            CardDirection.spanishToEnglish false)
          [(true, false)])).totalCards = 1 ∧
      (stats
        (runSession
          (startSession
            [{ id := 1, frontText := "hola", backText := "hello",
               deckId := 1, tags := none }]
            CardDirection.spanishToEnglish false)
          [(true, false)])).correctCount +
        (stats
          (runSession
            (startSession
              [{ id := 1, frontText := "hola", backText := "hello",
                 deckId := 1, tags := none }]
              CardDirection.spanishToEnglish false)
            [(true, false)])).missedCount = 1) :=
  ⟨session_invariant_and_completion.1 _
      (Reachable.start [] CardDirection.random true),
   session_invariant_and_completion.2
      [{ id := 1, frontText := "hola", backText := "hello", deckId := 1,
         tags := none }]
      CardDirection.spanishToEnglish false [(true, false)] rfl⟩

/-- C5: `recordResult` with no current card (terminal or never-started
session) returns the state unchanged, so the statistics are unchanged and
no failure occurs. -/
theorem recordResult_noop (correct coin : Bool) (s : SessionState)
    (h : currentCard s = none) :
    recordResult correct coin s = s ∧
    stats (recordResult correct coin s) = stats s := by
  have heq := recordResult_of_none correct coin s h
  exact ⟨heq, by rw [heq]⟩

/-- Witness for C5 at the cleared session state. -/
theorem recordResult_noop_witness :
    recordResult true false reset = reset ∧
    stats (recordResult true false reset) = stats reset :=
  recordResult_noop true false reset (by decide)

/-- C10: with no current card, both text accessors return the empty
string. -/
theorem accessors_empty_of_no_card (s : SessionState)
    (h : currentCard s = none) :
    frontText s = "" ∧ backText s = "" := by
  unfold frontText backText
  rw [h]
  exact ⟨rfl, rfl⟩

/-- Witness for C10 at the cleared session state. -/
theorem accessors_empty_of_no_card_witness :
    frontText reset = "" ∧ backText reset = "" :=
  accessors_empty_of_no_card reset (by decide)

/-- Counterexample to C3 as stated: `startSession` called with the empty
list does not reject; it overwrites the session state (here, a state that
held one card and differs from the result) and silently starts a zero-item
session that is immediately complete. -/
theorem startSession_empty_counterexample :
    startSession [] CardDirection.spanishToEnglish false ≠
      startSession
        [{ id := 1, frontText := "uno", backText := "one", deckId := 1,
           tags := none }] CardDirection.spanishToEnglish false ∧
    (startSession [] CardDirection.spanishToEnglish false).cards = [] ∧
    isSessionComplete (startSession [] CardDirection.spanishToEnglish false) =
      true := by
  refine ⟨fun h => ?_, rfl, rfl⟩
  have hlen := congrArg (fun st => st.cards.length) h
  simp [startSession] at hlen

/-- C3 amended: `startSession` performs no emptiness check; called with an
empty list it still resets the state (cards, index and results cleared)
and the session silently starts with zero items, being immediately
complete with no current card. -/
theorem startSession_empty_amended (d : CardDirection) (coin : Bool) :
    (startSession [] d coin).cards = [] ∧
    (startSession [] d coin).currentCardIndex = 0 ∧
    (startSession [] d coin).results = [] ∧
    isSessionComplete (startSession [] d coin) = true ∧
    currentCard (startSession [] d coin) = none := by
  refine ⟨rfl, rfl, rfl, rfl, rfl⟩
